import Mathlib

set_option maxRecDepth 8000

/- Shallow embedding of
   src/Lab03/Solution/assignment3_same_normalization_parameters_on_validation_split.py.

   Tensors of rationals stand for torch float tensors.  The floating-point
   numeric kernels used by the script (the square root inside torch.std_mean,
   the exponential inside softmax, the logarithm inside cross_entropy) are
   opaque library routines, so the whole development is parameterized over
   them through the structure Numerics.  A division whose float counterpart
   yields a non-finite value (division by a zero standard deviation in
   forward, a missing mean_std pair or a zero maximum in load_dataset) is
   modelled by returning none. -/

abbrev Mat (m n : ℕ) := Fin m → Fin n → ℚ

abbrev Vec (n : ℕ) := Fin n → ℚ

/-- Opaque numeric kernels of the underlying tensor library. -/
structure Numerics where
  sqrt : ℚ → ℚ
  exp : ℚ → ℚ
  log : ℚ → ℚ

def matMul {m k n : ℕ} (A : Mat m k) (B : Mat k n) : Mat m n :=
  fun i j => ∑ l, A i l * B l j

/- Broadcasting addition of a bias row vector, as in x @ w + b. -/
def addRow {m n : ℕ} (A : Mat m n) (b : Vec n) : Mat m n :=
  fun i j => A i j + b j

def addM {m n : ℕ} (A B : Mat m n) : Mat m n := fun i j => A i j + B i j

def subM {m n : ℕ} (A B : Mat m n) : Mat m n := fun i j => A i j - B i j

def smulM {m n : ℕ} (a : ℚ) (A : Mat m n) : Mat m n := fun i j => a * A i j

def matT {m n : ℕ} (A : Mat m n) : Mat n m := fun i j => A j i

/- torch.relu, elementwise (source line 22). -/
def reluM {m n : ℕ} (A : Mat m n) : Mat m n := fun i j => max (A i j) 0

/- tensor.mean(axis=0) of a (m, n) tensor. -/
def meanRows {m n : ℕ} (A : Mat m n) : Vec n := fun j => (∑ i, A i j) / (m : ℚ)

/- v.unsqueeze(0).repeat(m, 1): m identical rows. -/
def repeatRow {n : ℕ} (m : ℕ) (v : Vec n) : Mat m n := fun _ j => v j

/- torch.sum(torch.square(A)). -/
def sumSq {m n : ℕ} (A : Mat m n) : ℚ := ∑ i, ∑ j, (A i j) ^ 2

/- torch.std_mean(A): (std, mean) over all m*n entries, std unbiased
   (Bessel correction, the torch default). -/
def stdMeanM (ν : Numerics) {m n : ℕ} (A : Mat m n) : ℚ × ℚ :=
  let mean : ℚ := (∑ i, ∑ j, A i j) / ((m * n : ℕ) : ℚ)
  (ν.sqrt ((∑ i, ∑ j, (A i j - mean) ^ 2) / ((m * n - 1 : ℕ) : ℚ)), mean)

/- x.softmax(dim=1) (source line 18). -/
def softmaxM (ν : Numerics) {m n : ℕ} (Z : Mat m n) : Mat m n :=
  fun i j => ν.exp (Z i j) / ∑ k, ν.exp (Z i k)

/- log_softmax, as applied internally by torch.nn.functional.cross_entropy
   (semantically log of softmax). -/
def logSoftmaxM (ν : Numerics) {m n : ℕ} (Z : Mat m n) : Mat m n :=
  fun i j => ν.log (softmaxM ν Z i j)

/- torch.nn.functional.cross_entropy with probability targets: mean over the
   batch of the negated target-weighted log_softmax of the input. -/
def crossEntropyProbs (ν : Numerics) {m n : ℕ} (input target : Mat m n) : ℚ :=
  (∑ i, ∑ j, target i j * (-(logSoftmaxM ν input i j))) / (m : ℚ)

/- torch.nn.functional.cross_entropy with class-index targets. -/
def crossEntropyIdx (ν : Numerics) {m n : ℕ} (input : Mat m n) (y : Fin m → Fin n) : ℚ :=
  (∑ i, -(logSoftmaxM ν input i (y i))) / (m : ℚ)

/-- The four tensors returned by forward (source lines 42-51). -/
structure Forwarded (B h c : ℕ) where
  z_h : Mat B h
  y_h_hat : Mat B h
  z : Mat B c
  y_hat : Mat B c

/- forward (source lines 42-51).  The hidden ReLU activation is standardized
   in place with the (std, mean) of the whole activation tensor; the division
   by the std is unguarded in the source, so a zero std yields non-finite
   floats there, modelled here by none. -/
def forward (ν : Numerics) {B d h c : ℕ} (x : Mat B d) (w0 : Mat d h) (b0 : Vec h)
    (w1 : Mat h c) (b1 : Vec c) : Option (Forwarded B h c) :=
  let z_h := addRow (matMul x w0) b0
  let y_relu := reluM z_h
  let sm := stdMeanM ν y_relu
  if sm.1 = 0 then none else
    let y_h_hat : Mat B h := fun i j => (y_relu i j - sm.2) / sm.1
    let z := addRow (matMul y_h_hat w1) b1
    some ⟨z_h, y_h_hat, z, softmaxM ν z⟩

/-- The two weight matrices and two bias vectors (the lists w and b). -/
structure Params (d h c : ℕ) where
  w0 : Mat d h
  b0 : Vec h
  w1 : Mat h c
  b1 : Vec c

/- error = y_true - y_hat (source line 60). -/
def errOf {B h c : ℕ} (y_true : Mat B c) (F : Forwarded B h c) : Mat B c :=
  subM y_true F.y_hat

/- (z_h.flatten() > 0).float().reshape(batch_size, -1): the elementwise ReLU
   derivative mask of z_h (source line 64). -/
def maskOf {B h c : ℕ} (F : Forwarded B h c) : Mat B h :=
  fun i j => if 0 < F.z_h i j then 1 else 0

/- error_h = (error @ w1.T) * mask (source line 64). -/
def errHOf {B h c : ℕ} (w1 : Mat h c) (y_true : Mat B c) (F : Forwarded B h c) : Mat B h :=
  fun i j => matMul (errOf y_true F) (matT w1) i j * maskOf F i j

/- y_h_hat.transpose(0,1) @ error.mean(axis=0).unsqueeze(0).repeat(B, 1)
   (source lines 67-69). -/
def gradW1 {B h c : ℕ} (yhh : Mat B h) (err : Mat B c) : Mat h c :=
  matMul (matT yhh) (repeatRow B (meanRows err))

/- x.transpose(0,1) @ error_h.mean(axis=0).unsqueeze(0).repeat(B, 1)
   (source lines 72-74). -/
def gradW0 {B d h : ℕ} (x : Mat B d) (errH : Mat B h) : Mat d h :=
  matMul (matT x) (repeatRow B (meanRows errH))

/- train_batch (source lines 54-77).  The python batch_size argument always
   equals the leading dimension B of the batch, so it is carried here at the
   type level.  The in-place updates of w and b become the returned Params. -/
def trainBatch (ν : Numerics) {B d h c : ℕ} (x : Mat B d) (y_true : Mat B c)
    (p : Params d h c) (mu wd : ℚ) : Option (Params d h c × ℚ) :=
  (forward ν x p.w0 p.b0 p.w1 p.b1).map (fun F =>
    let w1copy := smulM (-2 * wd) p.w1
    let w0copy := smulM (-2 * wd) p.w0
    let loss := crossEntropyProbs ν F.y_hat y_true + wd * sumSq p.w1
    let w1n := addM (addM p.w1 (smulM mu (gradW1 F.y_h_hat (errOf y_true F)))) (smulM mu w1copy)
    let b1n : Vec c := fun j => p.b1 j + mu * meanRows (errOf y_true F) j
    let w0n := addM (addM p.w0 (smulM mu (gradW0 x (errHOf p.w1 y_true F)))) (smulM mu w0copy)
    let b0n : Vec h := fun j => p.b0 j + mu * meanRows (errHOf p.w1 y_true F) j
    (⟨w0n, b0n, w1n, b1n⟩, loss))

/- The index ranges range(step*bs, (step+1)*bs) processed by one epoch of
   train_perceptron (source lines 84-88): one list of indices per step. -/
def epochBatches (N bs : ℕ) : List (List ℕ) :=
  (List.range (N / bs)).map (fun k => (List.range bs).map (fun i => k * bs + i))

/- The batch start offsets step*bs of one epoch of train_perceptron. -/
def epochStarts (N bs : ℕ) : List ℕ :=
  (List.range (N / bs)).map (fun k => k * bs)

/- train_perceptron (source lines 80-93): nsteps = N // bs batches, batch k
   reading rows k*bs .. k*bs+bs-1 of data and labels, returning the updated
   parameters and the mean of the per-batch losses. -/
def trainPerceptron (ν : Numerics) {d h c : ℕ} (N : ℕ) (data : ℕ → Fin d → ℚ)
    (labels : ℕ → Fin c → ℚ) (p : Params d h c) (mu : ℚ) (bs : ℕ) (wd : ℚ) :
    Option (Params d h c × ℚ) :=
  (((List.range (N / bs)).foldl (fun acc step =>
      acc.bind (fun st =>
        (trainBatch ν (fun (i : Fin bs) (j : Fin d) => data (step * bs + (i : ℕ)) j)
          (fun (i : Fin bs) (j : Fin c) => labels (step * bs + (i : ℕ)) j)
          st.1 mu wd).map (fun r => (r.1, st.2 ++ [r.2]))))
      (some (p, ([] : List ℚ)))).map
    (fun st => (st.1, st.2.sum / (st.2.length : ℚ))))

/- The epoch loop of train (source lines 181-185): every epoch with
   (epoch+1) % 60 == 0 first scales mu by 0.2 (= 1/5), then runs one
   train_perceptron pass over the same data with the same batch size.
   State: (parameters, mu). -/
def trainEpochs (ν : Numerics) {d h c : ℕ} (N : ℕ) (data : ℕ → Fin d → ℚ)
    (labels : ℕ → Fin c → ℚ) (bs : ℕ) (wd : ℚ) (epochs : ℕ)
    (st : Params d h c × ℚ) : Option (Params d h c × ℚ) :=
  (List.range epochs).foldl (fun acc e =>
    acc.bind (fun s =>
      let mu2 := if (e + 1) % 60 = 0 then s.2 * (1 / 5) else s.2
      (trainPerceptron ν N data labels s.1 mu2 bs wd).map (fun r => (r.1, mu2))))
    (some st)

/- v indexed with a plain natural, 0 outside range (helper for argmax). -/
def natIdx {n : ℕ} (v : Vec n) (j : ℕ) : ℚ := if h : j < n then v ⟨j, h⟩ else 0

/- torch.max(v, dim)[1]: index of the first maximal entry of a row. -/
def argmaxRow {n : ℕ} (v : Vec n) : ℕ :=
  (List.range n).foldl (fun best j => if natIdx v best < natIdx v j then j else best) 0

/- The batch start offsets range(0, N, bs) of evaluate (source line 146). -/
def batchStarts (N bs : ℕ) : List ℕ :=
  (List.range ((N + bs - 1) / bs)).map (fun k => k * bs)

/- One iteration of the evaluate loop (source lines 146-152): slice the batch
   (the last one may be shorter), run forward, count the rows whose argmax
   equals the integer label, and take the batch cross-entropy. -/
def evalStep (ν : Numerics) {d h c : ℕ} (data : ℕ → Fin d → ℚ) (labels : ℕ → Fin c)
    (p : Params d h c) (N bs s : ℕ) : Option (ℕ × ℚ) :=
  (forward ν (fun (i : Fin (min bs (N - s))) (j : Fin d) => data (s + (i : ℕ)) j)
      p.w0 p.b0 p.w1 p.b1).map (fun F =>
    ((Finset.univ.filter (fun i : Fin (min bs (N - s)) =>
        argmaxRow (F.y_hat i) = ((labels (s + (i : ℕ)) : Fin c) : ℕ))).card,
     crossEntropyIdx ν F.y_hat (fun i => labels (s + (i : ℕ)))))

/- The accumulating loop of evaluate: total correct count and loss list. -/
def evalFold (step : ℕ → Option (ℕ × ℚ)) (l : List ℕ) (init : ℕ × List ℚ) :
    Option (ℕ × List ℚ) :=
  l.foldl (fun acc s => acc.bind (fun st =>
    (step s).map (fun r => (st.1 + r.1, st.2 ++ [r.2])))) (some init)

/- evaluate (source lines 139-153): returns
   (total correct / N, collate(loss).mean()). -/
def evaluate (ν : Numerics) {d h c : ℕ} (N bs : ℕ) (data : ℕ → Fin d → ℚ)
    (labels : ℕ → Fin c) (p : Params d h c) : Option (ℚ × ℚ) :=
  (evalFold (evalStep ν data labels p N bs) (batchStarts N bs) (0, [])).map
    (fun st => ((st.1 : ℚ) / (N : ℚ), st.2.sum / (st.2.length : ℚ)))

/-- Written from the specification's words, for comparison with evaluate:
the accuracy fraction is the count of examples whose argmax of y_hat equals
the integer label, divided by the dataset size, and the loss is the mean
cross-entropy over evaluation batches. -/
def specEvalPair (ν : Numerics) {d h c : ℕ} (N bs : ℕ) (data : ℕ → Fin d → ℚ)
    (labels : ℕ → Fin c) (p : Params d h c) : ℚ × ℚ :=
  (((((batchStarts N bs).map (fun s =>
        ((evalStep ν data labels p N bs s).map Prod.fst).getD 0)).sum : ℕ) : ℚ) / (N : ℚ),
   ((batchStarts N bs).map (fun s =>
        ((evalStep ν data labels p N bs s).map Prod.snd).getD 0)).sum /
     (((batchStarts N bs).length : ℕ) : ℚ))

/- Maximum of a list of rationals (tensor.max() of a nonempty tensor; the
   value on [] is arbitrary since the source errors there). -/
def listMax : List ℚ → ℚ
  | [] => 0
  | [x] => x
  | x :: y :: t => max x (listMax (y :: t))

/- Minimum of a list of rationals (tensor.min()). -/
def listMin : List ℚ → ℚ
  | [] => 0
  | [x] => x
  | x :: y :: t => min x (listMin (y :: t))

/- Step (1) of load_dataset (source lines 121-123): maxi = x.max();
   x -= x.min(); x /= maxi.  Each element becomes (v - min xs) / max xs,
   with the min and max of the very tensor being normalized. -/
def minmaxStage (xs : List ℚ) : List ℚ :=
  xs.map (fun v => (v - listMin xs) / listMax xs)

/- Step (2) of load_dataset (source lines 126-127) applied with a given
   (std, mean) pair ms: x -= ms[1]; x /= ms[0]. -/
def stdApply (ms : ℚ × ℚ) (v : ℚ) : ℚ := (v - ms.2) / ms.1

/- torch.std_mean of a flat list (std unbiased, as in stdMeanM). -/
def stdMeanList (ν : Numerics) (xs : List ℚ) : ℚ × ℚ :=
  let mean := xs.sum / (xs.length : ℚ)
  (ν.sqrt ((xs.map (fun v => (v - mean) ^ 2)).sum / ((xs.length - 1 : ℕ) : ℚ)), mean)

/- The normalization pipeline of load_dataset (source lines 119-127) on the
   flattened feature values: min-max step with the split's own min and max,
   then, for the training split, mean_std = torch.std_mean of the scaled
   data, else the mean_std received from the caller; finally the
   standardization x -= mean_std[1]; x /= mean_std[0].  A missing pair on the
   validation path (python None[1] crash) and the divisions by a zero max or
   zero std (non-finite floats) are modelled by none.  Returns the
   normalized values together with the pair that was used. -/
def loadNormalize (ν : Numerics) (train : Bool) (xs : List ℚ) (ms0 : Option (ℚ × ℚ)) :
    Option (List ℚ × (ℚ × ℚ)) :=
  if listMax xs = 0 then none else
    let ys := minmaxStage xs
    match (if train then some (stdMeanList ν ys) else ms0) with
    | none => none
    | some ms => if ms.1 = 0 then none else some (ys.map (stdApply ms), ms)

/- The two load_dataset calls of train (source lines 177-178): the training
   call computes mean_std, the validation/test call receives that pair. -/
def loadTrainTest (ν : Numerics) (xst xss : List ℚ) :
    Option ((List ℚ × (ℚ × ℚ)) × List ℚ) :=
  (loadNormalize ν true xst none).bind (fun rt =>
    (loadNormalize ν false xss (some rt.2)).map (fun rs => (rt, rs.1)))

/-- Written from the claim's words, for comparison with minmaxStage and
loadNormalize: min-max scaling of a split with the training set's global
min and max. -/
def specMinMaxPipe (tmn tmx : ℚ) (ms : ℚ × ℚ) (xs : List ℚ) : List ℚ :=
  (xs.map (fun v => (v - tmn) / (tmx - tmn))).map (stdApply ms)

/-- The per-value map a load_dataset call applies to a raw feature value:
min-max with the given split's min and max, then standardization with the
pair ms. -/
def normMap (xs : List ℚ) (ms : ℚ × ℚ) : ℚ → ℚ :=
  fun v => stdApply ms ((v - listMin xs) / listMax xs)

abbrev Image := Fin 28 → Fin 28 → ℚ

/- img_shifted_1 = torch.cat((255*ones(2,28), tensor[2:,:])) (source line
   108): rows 0-1 of the result are the constant block, row 2+r of the
   result is row 2+r of tensor (r ranging over the 26 rows of the slice). -/
def imgShifted1 (img : Image) : Image :=
  fun i j => if h : (i : ℕ) < 2 then 255
    else img ⟨2 + ((i : ℕ) - 2), by have hi := i.isLt; omega⟩ j

/- img_shifted_2 = torch.cat((tensor[:26,:], 255*ones(2,28))) (source line
   109): rows 0-25 come from the slice unchanged, rows 26-27 are constant. -/
def imgShifted2 (img : Image) : Image :=
  fun i j => if (i : ℕ) < 26 then img i j else 255

/- img_shifted_3 = torch.cat((255*ones(28,2), tensor[:,2:]), dim=1) (source
   line 110). -/
def imgShifted3 (img : Image) : Image :=
  fun i j => if h : (j : ℕ) < 2 then 255
    else img i ⟨2 + ((j : ℕ) - 2), by have hj := j.isLt; omega⟩

/- img_shifted_4 = torch.cat((tensor[:,:26], 255*ones(28,2)), dim=1) (source
   line 111). -/
def imgShifted4 (img : Image) : Image :=
  fun i j => if (j : ℕ) < 26 then img i j else 255

/-- Written from the claim's words: a genuine 2-pixel up-shift, the content
moving up two rows and the vacated bottom rows filled with the value M. -/
def specShiftUp (M : ℚ) (img : Image) : Image :=
  fun i j => if h : (i : ℕ) + 2 < 28 then img ⟨(i : ℕ) + 2, h⟩ j else M

/-- Written from the claim's words: a genuine 2-pixel down-shift. -/
def specShiftDown (M : ℚ) (img : Image) : Image :=
  fun i j => if h : 2 ≤ (i : ℕ) then img ⟨(i : ℕ) - 2, by have hi := i.isLt; omega⟩ j else M

/-- Written from the claim's words: a genuine 2-pixel left-shift. -/
def specShiftLeft (M : ℚ) (img : Image) : Image :=
  fun i j => if h : (j : ℕ) + 2 < 28 then img i ⟨(j : ℕ) + 2, h⟩ else M

/-- Written from the claim's words: a genuine 2-pixel right-shift. -/
def specShiftRight (M : ℚ) (img : Image) : Image :=
  fun i j => if h : 2 ≤ (j : ℕ) then img i ⟨(j : ℕ) - 2, by have hj := j.isLt; omega⟩ else M

/- A probe image with a single lit pixel away from every edge band. -/
def testImg : Image := fun i j => if (i : ℕ) = 5 ∧ (j : ℕ) = 5 then 7 else 0

/- x.max() of an integer label tensor. -/
def natListMax (l : List ℕ) : ℕ := l.foldr max 0

/- Row lab of torch.eye(mx+1): the indicator of lab among 0..mx. -/
def oneHotRow (mx lab : ℕ) : List ℚ :=
  (List.range (mx + 1)).map (fun j => if j = lab then 1 else 0)

/- to_one_hot (source lines 38-39): torch.eye(x.max()+1)[x]. -/
def toOneHot (labels : List ℕ) : List (List ℚ) :=
  labels.map (fun lab => oneHotRow (natListMax labels) lab)

/-- Written from the claim's words, for comparison with gradW1: the mean
over the batch of the per-example outer products of the hidden activation
row with the error row. -/
def specW1MeanOuter {B h c : ℕ} (yhh : Mat B h) (err : Mat B c) : Mat h c :=
  fun i j => (∑ b, yhh b i * err b j) / (B : ℚ)

/- Concrete numeric kernels for the closed-instance theorems below.  Only
   the values the instances actually reach matter; constant functions keep
   the evaluations finite and exact. -/
def numA : Numerics := ⟨fun _ => 1, fun _ => 1, fun _ => 0⟩

def numB : Numerics := ⟨fun _ => 0, fun _ => 1, fun _ => 0⟩

def numC : Numerics := ⟨fun _ => 2, fun _ => 1, fun _ => 0⟩

/- Concrete batch for the train_batch instances: x has hidden activations
   (0,0,0,4) whose std_mean is (2,1) for a square root sending 4 to 2. -/
def xC3 : Mat 2 2 := fun i j => if (i : ℕ) = 1 ∧ (j : ℕ) = 1 then 4 else 0

def idM2 : Mat 2 2 := fun i j => if i = j then 1 else 0

def pC3 : Params 2 2 2 := ⟨idM2, fun _ => 0, fun _ _ => 0, fun _ => 0⟩

/- All-zero parameters of the shapes of the example scenario of the spec:
   w0 of shape 4 x 3, w1 of shape 3 x 2, zero biases. -/
def pC6 : Params 4 3 2 := ⟨fun _ _ => 0, fun _ => 0, fun _ _ => 0, fun _ => 0⟩

def uniformHalf : Mat 2 2 := fun _ _ => 1 / 2

/- Concrete evaluation instance for the evaluate witness. -/
def dataC9 : ℕ → Fin 1 → ℚ := fun n _ => (n : ℚ)

def labelsC9 : ℕ → Fin 2 := fun _ => 0

def pC9 : Params 1 1 2 := ⟨fun _ _ => 1, fun _ => 0, fun _ _ => 0, fun _ => 0⟩

/- Helper: every matrix entry of a Fin-indexed constant family sums to the
   cardinality times the constant. -/
theorem sum_sum_const {m n : ℕ} (a : ℚ) :
    (∑ _i : Fin m, ∑ _j : Fin n, a) = ((m * n : ℕ) : ℚ) * a := by
  simp [Finset.sum_const, Finset.card_univ]
  ring

/- Helper: the std computed by torch.std_mean of a constant tensor is the
   square root of zero. -/
theorem stdMeanM_fst_of_const (ν : Numerics) {m n : ℕ} (A : Mat m n)
    (hA : ∀ i j i' j', A i j = A i' j') (hsq : ν.sqrt 0 = 0) :
    (stdMeanM ν A).1 = 0 := by
  have hz : (∑ i, ∑ j, (A i j - (∑ i, ∑ j, A i j) / ((m * n : ℕ) : ℚ)) ^ 2) = 0 := by
    rcases Nat.eq_zero_or_pos (m * n) with hmn | hmn
    · rcases Nat.mul_eq_zero.mp hmn with hm | hn
      · have : IsEmpty (Fin m) := by rw [hm]; exact Fin.isEmpty
        simp
      · have : IsEmpty (Fin n) := by rw [hn]; exact Fin.isEmpty
        simp
    · have hm : m ≠ 0 := by
        rintro rfl
        simp at hmn
      have hn : n ≠ 0 := by
        rintro rfl
        simp at hmn
      have i0 : Fin m := ⟨0, Nat.pos_of_ne_zero hm⟩
      have j0 : Fin n := ⟨0, Nat.pos_of_ne_zero hn⟩
      have hAll : ∀ i j, A i j = A i0 j0 := fun i j => hA i j i0 j0
      have hsum : (∑ i, ∑ j, A i j) = ((m * n : ℕ) : ℚ) * A i0 j0 := by
        rw [show (∑ i, ∑ j, A i j) = ∑ _i : Fin m, ∑ _j : Fin n, A i0 j0 from
          Finset.sum_congr rfl (fun i _ => Finset.sum_congr rfl (fun j _ => hAll i j))]
        exact sum_sum_const (A i0 j0)
      rw [hsum, mul_div_cancel_left₀ _ (by exact_mod_cast hmn.ne')]
      apply Finset.sum_eq_zero
      intro i _
      apply Finset.sum_eq_zero
      intro j _
      rw [hAll i j]
      ring
  simp only [stdMeanM]
  rw [hz]
  simpa using hsq

/- Helper: a constant hidden ReLU activation tensor gives a zero std, so
   forward hits the guard modelling the unguarded division by zero. -/
theorem forward_none_of_relu_const (ν : Numerics) {B d h c : ℕ} (x : Mat B d)
    (w0 : Mat d h) (b0 : Vec h) (w1 : Mat h c) (b1 : Vec c)
    (hsq : ν.sqrt 0 = 0)
    (hconst : ∀ i j i' j', reluM (addRow (matMul x w0) b0) i j =
      reluM (addRow (matMul x w0) b0) i' j') :
    forward ν x w0 b0 w1 b1 = none := by
  have h0 := stdMeanM_fst_of_const ν (reluM (addRow (matMul x w0) b0)) hconst hsq
  simp [forward, h0]

/-- C7: whenever all entries of the hidden ReLU activation
ReLU(x·w0 + b0) coincide (for instance when every hidden pre-activation is
non-positive, as with all-zero weights and biases), the per-batch
standardization in forward divides by a standard deviation of zero, so the
unguarded division produces no well-defined finite outputs: the embedded
forward returns none. -/
theorem forward_const_relu_undefined (ν : Numerics) {B d h c : ℕ} (x : Mat B d)
    (w0 : Mat d h) (b0 : Vec h) (w1 : Mat h c) (b1 : Vec c)
    (hsq : ν.sqrt 0 = 0)
    (hconst : ∀ i j i' j', reluM (addRow (matMul x w0) b0) i j =
      reluM (addRow (matMul x w0) b0) i' j') :
    forward ν x w0 b0 w1 b1 = none :=
  forward_none_of_relu_const ν x w0 b0 w1 b1 hsq hconst

/-- Witness for C7 at a concrete instance: all-zero 1-dimensional input and
parameters make every ReLU activation entry equal, and forward is
undefined there. -/
theorem forward_const_relu_undefined_w :
    (numB.sqrt 0 = 0 ∧ ∀ (i j i' j' : Fin 1),
      reluM (addRow (matMul (fun _ _ => (0 : ℚ) : Mat 1 1) (fun _ _ => 0)) (fun _ => 0)) i j =
      reluM (addRow (matMul (fun _ _ => (0 : ℚ) : Mat 1 1) (fun _ _ => 0)) (fun _ => 0)) i' j') ∧
    forward numB (fun _ _ => (0 : ℚ) : Mat 1 1) (fun _ _ => 0) (fun _ => 0)
      (fun _ _ => (0 : ℚ) : Mat 1 1) (fun _ => 0) = none := by
  refine ⟨⟨rfl, ?_⟩, ?_⟩
  · intro i j i' j'
    rw [Subsingleton.elim i i', Subsingleton.elim j j']
  · exact forward_const_relu_undefined numB _ _ _ _ _ rfl
      (fun i j i' j' => by rw [Subsingleton.elim i i', Subsingleton.elim j j'])

/-- C6 is false on the code: in the example scenario (2-example batch,
all-zero 4x3 and 3x2 weights, zero biases, wd = 0) the hidden activations
are identically zero, torch.std_mean returns a zero std, and the
standardization division is by zero, so forward yields no well-defined
softmax output at all (none in the embedding), not the uniform 0.5/0.5
matrix, and train_batch reports no loss value. -/
theorem forward_zero_params_cx :
    (forward numB ((fun _ _ => 3) : Mat 2 4) pC6.w0 pC6.b0 pC6.w1 pC6.b1).map Forwarded.y_hat = none ∧
    (trainBatch numB ((fun _ _ => 3) : Mat 2 4) idM2 pC6 1 0).map Prod.snd = none ∧
    (forward numB ((fun _ _ => 3) : Mat 2 4) pC6.w0 pC6.b0 pC6.w1 pC6.b1).map Forwarded.y_hat ≠
      some uniformHalf := by
  have hf : forward numB ((fun _ _ => 3) : Mat 2 4) pC6.w0 pC6.b0 pC6.w1 pC6.b1 = none := by
    simp [forward, stdMeanM, numB]
  refine ⟨by rw [hf]; rfl, ?_, by rw [hf]; simp⟩
  simp [trainBatch, hf]

/-- C6 (amended): in the example scenario the hidden pre-activations are
zero for every input, so all ReLU activations coincide, the per-batch std
is zero, and the unguarded standardization division leaves forward with no
well-defined finite output for any input whatsoever (the embedded forward
returns none); in particular no uniform 0.5/0.5 softmax output and no
ln 2 loss are produced. -/
theorem forward_zero_params_amended (ν : Numerics) (hsq : ν.sqrt 0 = 0) (x : Mat 2 4) :
    forward ν x pC6.w0 pC6.b0 pC6.w1 pC6.b1 = none := by
  apply forward_none_of_relu_const ν x pC6.w0 pC6.b0 pC6.w1 pC6.b1 hsq
  have hz : ∀ (a : Fin 2) (b : Fin 3), reluM (addRow (matMul x pC6.w0) pC6.b0) a b = 0 := by
    intro a b
    simp [reluM, addRow, matMul, pC6]
  intro i j i' j'
  rw [hz i j, hz i' j']

/-- Witness for the amended C6 at a concrete numeric kernel and input. -/
theorem forward_zero_params_amended_w :
    numB.sqrt 0 = 0 ∧
    forward numB ((fun _ _ => 9) : Mat 2 4) pC6.w0 pC6.b0 pC6.w1 pC6.b1 = none :=
  ⟨rfl, forward_zero_params_amended numB rfl ((fun _ _ => 9) : Mat 2 4)⟩

/-- C4: for every batch, parameters, learning rate and weight-decay
coefficient, the scalar loss returned by train_batch is
cross-entropy(y_hat, y_true) + wd * sum(w1 squared) — only w1 enters the
regularization term — while both weight matrices receive the decay term
−2·wd·w in their updates (stated here as p += mu * (grad - 2*wd*p)). -/
theorem trainBatch_loss_and_decay (ν : Numerics) {B d h c : ℕ} (x : Mat B d)
    (y_true : Mat B c) (p : Params d h c) (mu wd : ℚ) :
    (trainBatch ν x y_true p mu wd).map Prod.snd =
      (forward ν x p.w0 p.b0 p.w1 p.b1).map (fun F =>
        crossEntropyProbs ν F.y_hat y_true + wd * ∑ i, ∑ j, (p.w1 i j) ^ 2) ∧
    (trainBatch ν x y_true p mu wd).map (fun r => r.1.w1) =
      (forward ν x p.w0 p.b0 p.w1 p.b1).map (fun F => fun i j =>
        p.w1 i j + mu * (gradW1 F.y_h_hat (errOf y_true F) i j - 2 * wd * p.w1 i j)) ∧
    (trainBatch ν x y_true p mu wd).map (fun r => r.1.w0) =
      (forward ν x p.w0 p.b0 p.w1 p.b1).map (fun F => fun i j =>
        p.w0 i j + mu * (gradW0 x (errHOf p.w1 y_true F) i j - 2 * wd * p.w0 i j)) := by
  cases hF : forward ν x p.w0 p.b0 p.w1 p.b1 with
  | none => simp [trainBatch, hF]
  | some F =>
      refine ⟨?_, ?_, ?_⟩
      · simp [trainBatch, hF, sumSq]
      · simp only [trainBatch, hF, Option.map_some', Option.some.injEq]
        funext i j
        simp [addM, smulM]
        ring
      · simp only [trainBatch, hF, Option.map_some', Option.some.injEq]
        funext i j
        simp [addM, smulM]
        ring

/-- C3 (amended): the weight-matrix update actually applied by train_batch
is param += mu * ((batch-SUM of the layer input rows) ⊗ (batch-mean error)
plus the weight-decay term) — that is, batch_size times the outer product
of the two batch means, not the batch mean of the per-example outer
products; the bias updates are mu times the batch-mean error, as
claimed. -/
theorem trainBatch_update_amended (ν : Numerics) {B d h c : ℕ} (x : Mat B d)
    (y_true : Mat B c) (p : Params d h c) (mu wd : ℚ) :
    (trainBatch ν x y_true p mu wd).map (fun r => r.1.w1) =
      (forward ν x p.w0 p.b0 p.w1 p.b1).map (fun F => fun i j =>
        p.w1 i j + mu * ((∑ b, F.y_h_hat b i) * meanRows (errOf y_true F) j +
          (-2 * wd) * p.w1 i j)) ∧
    (trainBatch ν x y_true p mu wd).map (fun r => r.1.w0) =
      (forward ν x p.w0 p.b0 p.w1 p.b1).map (fun F => fun i j =>
        p.w0 i j + mu * ((∑ b, x b i) * meanRows (errHOf p.w1 y_true F) j +
          (-2 * wd) * p.w0 i j)) ∧
    (trainBatch ν x y_true p mu wd).map (fun r => r.1.b1) =
      (forward ν x p.w0 p.b0 p.w1 p.b1).map (fun F => fun j =>
        p.b1 j + mu * meanRows (errOf y_true F) j) ∧
    (trainBatch ν x y_true p mu wd).map (fun r => r.1.b0) =
      (forward ν x p.w0 p.b0 p.w1 p.b1).map (fun F => fun j =>
        p.b0 j + mu * meanRows (errHOf p.w1 y_true F) j) := by
  cases hF : forward ν x p.w0 p.b0 p.w1 p.b1 with
  | none => simp [trainBatch, hF]
  | some F =>
      refine ⟨?_, ?_, ?_, ?_⟩
      · simp only [trainBatch, hF, Option.map_some', Option.some.injEq]
        funext i j
        simp [addM, smulM, gradW1, matMul, matT, repeatRow, Finset.sum_mul]
        ring
      · simp only [trainBatch, hF, Option.map_some', Option.some.injEq]
        funext i j
        simp [addM, smulM, gradW0, matMul, matT, repeatRow, Finset.sum_mul]
        ring
      · simp [trainBatch, hF]
      · simp [trainBatch, hF]

/-- C3 is false on the code: at a concrete 2-example batch (x with hidden
ReLU activations 0,0,0,4, identity w0, zero w1 and biases, mu = 1, wd = 0,
square root sending the variance to the std 2), the w1 entry written by
train_batch is 0, while the claimed update — the batch MEAN of the
per-example outer products of activation and error rows — would write
-1/2 there. -/
theorem trainBatch_meanOuter_cx :
    (trainBatch numC xC3 idM2 pC3 1 0).map (fun r => r.1.w1 1 0) = some 0 ∧
    (forward numC xC3 pC3.w0 pC3.b0 pC3.w1 pC3.b1).map (fun F =>
      pC3.w1 1 0 + 1 * (specW1MeanOuter F.y_h_hat (errOf idM2 F) 1 0 +
        (-2 * 0) * pC3.w1 1 0)) = some (-(1 / 2)) ∧
    some (0 : ℚ) ≠ some (-(1 / 2)) := by
  refine ⟨?_, ?_, by simp⟩
  · norm_num [trainBatch, forward, stdMeanM, reluM, addRow, matMul, matT, repeatRow,
      meanRows, addM, smulM, subM, gradW1, gradW0, errOf, errHOf, maskOf, softmaxM,
      numC, xC3, idM2, pC3, Fin.sum_univ_two, max_def]
  · norm_num [forward, stdMeanM, reluM, addRow, matMul, specW1MeanOuter, errOf, subM,
      softmaxM, numC, xC3, idM2, pC3, Fin.sum_univ_two, max_def]

/-- C5 is false on the code: none of the four augmentation variants moves
any image content.  On a probe image whose only lit pixel (value 7) sits at
row 5, column 5 — away from every edge band — all four produced variants
keep the 7 at (5,5), while each genuine 2-pixel shift would place the value
of a (zero) neighbour there; in particular the variant that touches the
bottom two rows (img_shifted_2) differs from the claimed up-shift. -/
theorem imgShift_no_translation_cx :
    imgShifted1 testImg 5 5 = 7 ∧ imgShifted2 testImg 5 5 = 7 ∧
    imgShifted3 testImg 5 5 = 7 ∧ imgShifted4 testImg 5 5 = 7 ∧
    specShiftUp 255 testImg 5 5 = 0 ∧ specShiftDown 255 testImg 5 5 = 0 ∧
    specShiftLeft 255 testImg 5 5 = 0 ∧ specShiftRight 255 testImg 5 5 = 0 ∧
    imgShifted2 testImg ≠ specShiftUp 255 testImg := by
  have h5 : ((5 : Fin 28) : ℕ) = 5 := rfl
  have h7 : ((7 : Fin 28) : ℕ) = 7 := rfl
  refine ⟨?_, ?_, ?_, ?_, ?_, ?_, ?_, ?_, ?_⟩
  · norm_num [imgShifted1, testImg, h5]
  · norm_num [imgShifted2, testImg, h5]
  · norm_num [imgShifted3, testImg, h5]
  · norm_num [imgShifted4, testImg, h5]
  · norm_num [specShiftUp, testImg, h5, h7]
  · norm_num [specShiftDown, testImg, h5]
  · norm_num [specShiftLeft, testImg, h5, h7]
  · norm_num [specShiftRight, testImg, h5]
  · intro hcontra
    have h55 := congrFun (congrFun hcontra 5) 5
    norm_num [imgShifted2, specShiftUp, testImg, h5, h7] at h55

/-- C5 (amended): each of the four augmentation variants produced by
load_dataset overwrites one 2-pixel edge band (top, bottom, left, right
respectively) with the constant intensity 255 and leaves every other pixel
of the image unchanged; no content is translated. -/
theorem imgShift_bands_amended (img : Image) (i j : Fin 28) :
    imgShifted1 img i j = (if (i : ℕ) < 2 then 255 else img i j) ∧
    imgShifted2 img i j = (if (i : ℕ) < 26 then img i j else 255) ∧
    imgShifted3 img i j = (if (j : ℕ) < 2 then 255 else img i j) ∧
    imgShifted4 img i j = (if (j : ℕ) < 26 then img i j else 255) := by
  refine ⟨?_, rfl, ?_, rfl⟩
  · by_cases h : (i : ℕ) < 2
    · simp [imgShifted1, h]
    · have hv : (⟨2 + ((i : ℕ) - 2), by have hi := i.isLt; omega⟩ : Fin 28) = i :=
        Fin.ext (by simp; omega)
      simp only [imgShifted1, h, dif_neg, not_false_iff, if_neg]
      rw [hv]
  · by_cases h : (j : ℕ) < 2
    · simp [imgShifted3, h]
    · have hv : (⟨2 + ((j : ℕ) - 2), by have hj := j.isLt; omega⟩ : Fin 28) = j :=
        Fin.ext (by simp; omega)
      simp only [imgShifted3, h, dif_neg, not_false_iff, if_neg]
      rw [hv]

/- Helper: flattening the per-step index ranges of t steps of size bs gives
   the contiguous range of the first t*bs indices. -/
theorem flatten_range_blocks (bs : ℕ) : ∀ t : ℕ,
    ((List.range t).map (fun k => (List.range bs).map (fun i => k * bs + i))).flatten =
      List.range (t * bs) := by
  intro t
  induction t with
  | zero => simp
  | succ t ih =>
      rw [List.range_succ, List.map_append, List.flatten_append, ih]
      simp only [List.map_cons, List.map_nil, List.flatten_cons, List.flatten_nil,
        List.append_nil]
      rw [Nat.succ_mul, List.range_add]

/- Helper: the per-step index ranges are pairwise disjoint. -/
theorem epochBatches_pairwise_disjoint (N bs : ℕ) :
    List.Pairwise (fun A B => ∀ a ∈ A, a ∉ B) (epochBatches N bs) := by
  have hp : List.Pairwise (· < ·) (List.range (N / bs)) := List.pairwise_lt_range _
  refine List.Pairwise.map _ ?_ hp
  intro k k' hkk a ha hb
  simp only [List.mem_map, List.mem_range] at ha hb
  obtain ⟨i, hi, hia⟩ := ha
  obtain ⟨i', hi', hib⟩ := hb
  subst hia
  have h1 : k * bs + i < (k + 1) * bs := by
    rw [Nat.succ_mul]
    exact Nat.add_lt_add_left hi _
  have h2 : (k + 1) * bs ≤ k' * bs := Nat.mul_le_mul_right bs hkk
  have h3 : k * bs + i < k' * bs + i' :=
    lt_of_lt_of_le (lt_of_lt_of_le h1 h2) (Nat.le_add_right _ _)
  rw [hib] at h3
  exact lt_irrefl _ h3

/-- C8 is false on the code: an epoch is not a full pass over the dataset.
With 3 examples and batch size 2, index 2 belongs to no batch of the epoch
(the tail N mod bs examples are dropped), although the claim requires every
index below N to be covered. -/
theorem epochBatches_not_full_cx :
    (2 < 3 ∧ 2 ∉ (epochBatches 3 2).flatten) ∧ (epochBatches 3 2).flatten = [0, 1] := by
  refine ⟨⟨by decide, ?_⟩, ?_⟩ <;> decide

/-- C8 (amended): one epoch of train_perceptron processes the fixed
contiguous index ranges [k*bs, (k+1)*bs) for k < N/bs, in dataset order —
a fold over the start offsets k*bs, identical for every epoch since the
offsets depend only on N and bs; the ranges are pairwise disjoint, and
their union is exactly the first (N/bs)*bs indices, which is the whole
dataset precisely when bs divides N (otherwise the last N mod bs examples
are never visited). -/
theorem trainPerceptron_batches (N bs : ℕ) :
    (∀ (ν : Numerics) (d h c : ℕ) (data : ℕ → Fin d → ℚ) (labels : ℕ → Fin c → ℚ)
      (p : Params d h c) (mu wd : ℚ),
      trainPerceptron ν N data labels p mu bs wd =
        (((epochStarts N bs).foldl (fun acc s =>
            acc.bind (fun st =>
              (trainBatch ν (fun (i : Fin bs) (j : Fin d) => data (s + (i : ℕ)) j)
                (fun (i : Fin bs) (j : Fin c) => labels (s + (i : ℕ)) j)
                st.1 mu wd).map (fun r => (r.1, st.2 ++ [r.2]))))
            (some (p, ([] : List ℚ)))).map
          (fun st => (st.1, st.2.sum / (st.2.length : ℚ))))) ∧
    epochBatches N bs = (List.range (N / bs)).map (fun k =>
      (List.range bs).map (fun i => k * bs + i)) ∧
    List.Pairwise (fun A B => ∀ a ∈ A, a ∉ B) (epochBatches N bs) ∧
    (epochBatches N bs).flatten = List.range (N / bs * bs) ∧
    N / bs * bs ≤ N ∧
    (bs ∣ N → (epochBatches N bs).flatten = List.range N) := by
  refine ⟨?_, rfl, epochBatches_pairwise_disjoint N bs, ?_, Nat.div_mul_le_self N bs, ?_⟩
  · intro ν d h c data labels p mu wd
    simp only [trainPerceptron, epochStarts, List.foldl_map]
  · rw [show epochBatches N bs = (List.range (N / bs)).map (fun k =>
      (List.range bs).map (fun i => k * bs + i)) from rfl]
    exact flatten_range_blocks bs (N / bs)
  · intro hdvd
    rw [show epochBatches N bs = (List.range (N / bs)).map (fun k =>
      (List.range bs).map (fun i => k * bs + i)) from rfl]
    rw [flatten_range_blocks bs (N / bs), Nat.div_mul_cancel hdvd]

/-- Witness for the amended C8 at concrete sizes: with N = 4 and bs = 2 the
divisibility hypothesis holds and the union of the epoch's batches is the
whole index range. -/
theorem trainPerceptron_batches_w :
    (2 ∣ 4) ∧ (epochBatches 4 2).flatten = List.range 4 :=
  ⟨⟨2, rfl⟩, (trainPerceptron_batches 4 2).2.2.2.2.2 ⟨2, rfl⟩⟩

/- Helper: the list minimum bounds every member from below. -/
theorem listMin_le_of_mem : ∀ (l : List ℚ) (a : ℚ), a ∈ l → listMin l ≤ a
  | [], a, h => by simp at h
  | [x], a, h => by
      simp only [List.mem_singleton] at h
      subst h
      simp [listMin]
  | x :: y :: t, a, h => by
      rcases List.mem_cons.mp h with h1 | h2
      · subst h1
        simp only [listMin]
        exact min_le_left _ _
      · have ih := listMin_le_of_mem (y :: t) a h2
        refine le_trans ?_ ih
        simp only [listMin]
        exact min_le_right _ _

/- Helper: the list maximum bounds every member from above. -/
theorem le_listMax_of_mem : ∀ (l : List ℚ) (a : ℚ), a ∈ l → a ≤ listMax l
  | [], a, h => by simp at h
  | [x], a, h => by
      simp only [List.mem_singleton] at h
      subst h
      simp [listMax]
  | x :: y :: t, a, h => by
      rcases List.mem_cons.mp h with h1 | h2
      · subst h1
        simp only [listMax]
        exact le_max_left _ _
      · have ih := le_listMax_of_mem (y :: t) a h2
        refine le_trans ih ?_
        simp only [listMax]
        exact le_max_right _ _

/- Helper: on a nonempty list the minimum is at most the maximum. -/
theorem listMin_le_listMax (l : List ℚ) (h : l ≠ []) : listMin l ≤ listMax l := by
  cases l with
  | nil => exact absurd rfl h
  | cons x t =>
      exact le_trans (listMin_le_of_mem (x :: t) x (List.mem_cons_self x t))
        (le_listMax_of_mem (x :: t) x (List.mem_cons_self x t))

/-- C1 is false as a whole on the code: the (std, mean) pair is threaded,
but the min-max stage recomputes the split's own min and max, so the same
raw value can be normalized differently by the two call paths.  Training
data [0,1] and validation data [0,1,2] both contain the raw value 1 at
position 1; the training path sends it to 1/2, the validation path (using
the threaded training (std, mean) = (1, 1/2) but its own max 2) sends it
to 0. -/
theorem loadTrainTest_path_dependent_cx :
    loadTrainTest numA [0, 1] [0, 1, 2] =
      some ((([-(1 / 2), 1 / 2] : List ℚ), ((1 : ℚ), (1 / 2 : ℚ))),
        ([-(1 / 2), 0, 1 / 2] : List ℚ)) ∧
    ([0, 1].getD 1 0 : ℚ) = ([0, 1, 2].getD 1 0 : ℚ) ∧
    ([-(1 / 2), 1 / 2].getD 1 0 : ℚ) ≠ ([-(1 / 2), 0, 1 / 2].getD 1 0 : ℚ) := by
  refine ⟨?_, by norm_num, by norm_num⟩
  norm_num [loadTrainTest, loadNormalize, minmaxStage, stdApply, stdMeanList,
    listMax, listMin, numA, max_def, min_def]

/-- C1 (amended): the validation/test load receives and reuses the
training (std, mean) pair unchanged — both outputs are their raw values
passed through min-max scaling with the split's own min and max, then
standardization with the SAME pair — and the two per-value normalization
maps agree (same raw input, same standardized output on either path)
whenever the two splits share their global min and max. -/
theorem loadTrainTest_threading (ν : Numerics) (xst xss : List ℚ)
    (out : (List ℚ × (ℚ × ℚ)) × List ℚ)
    (hload : loadTrainTest ν xst xss = some out) :
    out.1.1 = xst.map (normMap xst out.1.2) ∧
    out.2 = xss.map (normMap xss out.1.2) ∧
    (listMin xst = listMin xss → listMax xst = listMax xss →
      normMap xst out.1.2 = normMap xss out.1.2) := by
  by_cases hmt : listMax xst = 0
  · simp [loadTrainTest, loadNormalize, hmt] at hload
  by_cases hmss : listMax xss = 0
  · simp [loadTrainTest, loadNormalize, hmt, hmss] at hload
  by_cases hstd : (stdMeanList ν (minmaxStage xst)).1 = 0
  · simp [loadTrainTest, loadNormalize, hmt, hmss, hstd] at hload
  · have hout : out =
        (((minmaxStage xst).map (stdApply (stdMeanList ν (minmaxStage xst))),
          stdMeanList ν (minmaxStage xst)),
         (minmaxStage xss).map (stdApply (stdMeanList ν (minmaxStage xst)))) := by
      simp [loadTrainTest, loadNormalize, hmt, hmss, hstd] at hload
      exact hload.symm
    subst hout
    refine ⟨?_, ?_, ?_⟩
    · show (xst.map (fun v => (v - listMin xst) / listMax xst)).map
          (stdApply (stdMeanList ν (minmaxStage xst))) =
        xst.map (normMap xst (stdMeanList ν (minmaxStage xst)))
      rw [List.map_map]
      rfl
    · show (xss.map (fun v => (v - listMin xss) / listMax xss)).map
          (stdApply (stdMeanList ν (minmaxStage xst))) =
        xss.map (normMap xss (stdMeanList ν (minmaxStage xst)))
      rw [List.map_map]
      rfl
    · intro h1 h2
      funext v
      simp [normMap, h1, h2]

/-- Witness for the amended C1: on splits sharing min 0 and max 2 the two
normalization maps coincide. -/
theorem loadTrainTest_threading_w :
    (loadTrainTest numA [0, 2] [2, 0, 1] =
      some ((([-(1 / 2), 1 / 2] : List ℚ), ((1 : ℚ), (1 / 2 : ℚ))),
        ([1 / 2, -(1 / 2), 0] : List ℚ)) ∧
     listMin [0, 2] = listMin [2, 0, 1] ∧ listMax [0, 2] = listMax [2, 0, 1]) ∧
    normMap [0, 2] (1, 1 / 2) = normMap [2, 0, 1] (1, 1 / 2) := by
  have hload : loadTrainTest numA [0, 2] [2, 0, 1] =
      some ((([-(1 / 2), 1 / 2] : List ℚ), ((1 : ℚ), (1 / 2 : ℚ))),
        ([1 / 2, -(1 / 2), 0] : List ℚ)) := by
    norm_num [loadTrainTest, loadNormalize, minmaxStage, stdApply, stdMeanList,
      listMax, listMin, numA, max_def, min_def]
  refine ⟨⟨hload, by norm_num [listMin, min_def], by norm_num [listMax, max_def]⟩, ?_⟩
  exact (loadTrainTest_threading numA [0, 2] [2, 0, 1] _ hload).2.2
    (by norm_num [listMin, min_def]) (by norm_num [listMax, max_def])

/-- C2 is false on the code: the min-max step of a validation/test load
uses the split's own min and max, not the training set's.  With training
data [0,1] (max 1) and validation data [0,1,2] (max 2), the validation
output is [-1/2, 0, 1/2], while min-max scaling with the training set's
min and max followed by the same standardization would give
[-1/2, 1/2, 3/2] (and would leave [0,1]-range, value 2 scaling to 2). -/
theorem loadNormalize_minmax_cx :
    (loadNormalize numA false [0, 1, 2] (some (1, 1 / 2))).map Prod.fst =
      some ([-(1 / 2), 0, 1 / 2] : List ℚ) ∧
    specMinMaxPipe (listMin [0, 1]) (listMax [0, 1]) (1, 1 / 2) [0, 1, 2] =
      ([-(1 / 2), 1 / 2, 3 / 2] : List ℚ) ∧
    some ([-(1 / 2), 0, 1 / 2] : List ℚ) ≠ some ([-(1 / 2), 1 / 2, 3 / 2] : List ℚ) := by
  refine ⟨?_, ?_, by norm_num⟩
  · norm_num [loadNormalize, minmaxStage, stdApply, listMax, listMin, numA,
      max_def, min_def]
  · norm_num [specMinMaxPipe, stdApply, listMax, listMin, max_def, min_def]

/-- C2 (amended): the min-max step of load_dataset scales each split with
the split's OWN global min and max, via (v - min) / max (the divisor is
the max, not max - min), before the standardization with the received
(std, mean) pair is applied; on data with non-negative minimum the scaled
values do lie in [0, 1]. -/
theorem loadNormalize_minmax_amended (ν : Numerics) (xs : List ℚ) (ms : ℚ × ℚ)
    (out : List ℚ × (ℚ × ℚ))
    (hload : loadNormalize ν false xs (some ms) = some out) :
    out.1 = (minmaxStage xs).map (stdApply ms) ∧
    out.2 = ms ∧
    minmaxStage xs = xs.map (fun v => (v - listMin xs) / listMax xs) ∧
    (xs ≠ [] → 0 ≤ listMin xs → ∀ y ∈ minmaxStage xs, 0 ≤ y ∧ y ≤ 1) := by
  by_cases hmt : listMax xs = 0
  · simp [loadNormalize, hmt] at hload
  by_cases hms : ms.1 = 0
  · simp [loadNormalize, hmt, hms] at hload
  have hout : out = ((minmaxStage xs).map (stdApply ms), ms) := by
    simp [loadNormalize, hmt, hms] at hload
    exact hload.symm
  subst hout
  refine ⟨rfl, rfl, rfl, ?_⟩
  intro hne hmin y hy
  obtain ⟨v, hv, rfl⟩ := List.mem_map.mp hy
  have hmax : 0 < listMax xs :=
    lt_of_le_of_ne (le_trans hmin (listMin_le_listMax xs hne)) (Ne.symm hmt)
  constructor
  · exact div_nonneg (sub_nonneg.mpr (listMin_le_of_mem xs v hv)) (le_of_lt hmax)
  · rw [div_le_one hmax]
    calc v - listMin xs ≤ v := by linarith
      _ ≤ listMax xs := le_listMax_of_mem xs v hv

/-- Witness for the amended C2 at a concrete validation load. -/
theorem loadNormalize_minmax_amended_w :
    (loadNormalize numA false [0, 1, 2] (some (1, 1 / 2)) =
      some (([-(1 / 2), 0, 1 / 2] : List ℚ), (1, 1 / 2)) ∧
     ([0, 1, 2] : List ℚ) ≠ [] ∧ (0 : ℚ) ≤ listMin [0, 1, 2]) ∧
    (∀ y ∈ minmaxStage [0, 1, 2], 0 ≤ y ∧ y ≤ 1) := by
  have hload : loadNormalize numA false [0, 1, 2] (some (1, 1 / 2)) =
      some (([-(1 / 2), 0, 1 / 2] : List ℚ), (1, 1 / 2)) := by
    norm_num [loadNormalize, minmaxStage, stdApply, listMax, listMin, numA,
      max_def, min_def]
  refine ⟨⟨hload, by simp, by norm_num [listMin, min_def]⟩, ?_⟩
  exact (loadNormalize_minmax_amended numA [0, 1, 2] (1, 1 / 2) _ hload).2.2.2
    (by simp) (by norm_num [listMin, min_def])

/- Helper: every member of a list of naturals is bounded by natListMax. -/
theorem le_natListMax (l : List ℕ) (a : ℕ) (h : a ∈ l) : a ≤ natListMax l := by
  induction l with
  | nil => simp at h
  | cons x t ih =>
      rcases List.mem_cons.mp h with h1 | h2
      · subst h1
        exact le_max_left _ _
      · exact le_trans (ih h2) (le_max_right _ _)

/- Helper: natListMax is bounded by any common upper bound. -/
theorem natListMax_le (l : List ℕ) (b : ℕ) (hb : ∀ a ∈ l, a ≤ b) : natListMax l ≤ b := by
  induction l with
  | nil => exact Nat.zero_le b
  | cons x t ih =>
      exact max_le (hb x (List.mem_cons_self x t))
        (ih (fun a ha => hb a (List.mem_cons_of_mem x ha)))

/-- C10 is false on the code: torch.eye(x.max()+1) makes the one-hot width
depend on the largest label present, not on the fixed class count 10.  The
label tensor [0] has all values in 0-9, yet its encoding is the 1-wide
[[1]], not 10-wide rows. -/
theorem toOneHot_width_cx :
    (∀ a ∈ ([0] : List ℕ), a ≤ 9) ∧ toOneHot [0] = [[1]] ∧
    (([1] : List ℚ)).length = 1 ∧ (1 : ℕ) ≠ 10 := by
  refine ⟨by decide, ?_, rfl, by decide⟩
  simp [toOneHot, oneHotRow, natListMax, List.range_succ]

/-- C10 (amended): to_one_hot encodes each label as the indicator row of a
(max label + 1)-wide identity, with a single 1 at the label's index and 0
elsewhere; the rows are 10-wide exactly when the label 9 occurs among the
(0-9 valued) labels, as it does for the full MNIST training set. -/
theorem toOneHot_amended (labels : List ℕ) (lab : ℕ) (hmem : lab ∈ labels) :
    toOneHot labels = labels.map (oneHotRow (natListMax labels)) ∧
    (oneHotRow (natListMax labels) lab).length = natListMax labels + 1 ∧
    (∀ j, j < natListMax labels + 1 →
      (oneHotRow (natListMax labels) lab).getD j 0 = if j = lab then 1 else 0) ∧
    lab < natListMax labels + 1 ∧
    ((9 : ℕ) ∈ labels → (∀ a ∈ labels, a ≤ 9) → natListMax labels + 1 = 10) := by
  refine ⟨rfl, by simp [oneHotRow], ?_, ?_, ?_⟩
  · intro j hj
    rw [oneHotRow, List.getD_eq_getElem?_getD, List.getElem?_map,
      List.getElem?_range hj]
    rfl
  · exact Nat.lt_succ_of_le (le_natListMax labels lab hmem)
  · intro h9 hle
    have h1 : natListMax labels ≤ 9 := natListMax_le labels 9 hle
    have h2 : 9 ≤ natListMax labels := le_natListMax labels 9 h9
    omega

/-- Witness for the amended C10: on the label tensor [9, 2] the row of
label 2 is 10-wide with its single 1 at index 2. -/
theorem toOneHot_amended_w :
    ((2 : ℕ) ∈ ([9, 2] : List ℕ) ∧ (9 : ℕ) ∈ ([9, 2] : List ℕ) ∧
      (∀ a ∈ ([9, 2] : List ℕ), a ≤ 9)) ∧
    ((oneHotRow (natListMax [9, 2]) 2).length = natListMax [9, 2] + 1 ∧
      natListMax [9, 2] + 1 = 10) := by
  refine ⟨⟨by decide, by decide, by decide⟩, ?_, ?_⟩
  · exact (toOneHot_amended [9, 2] 2 (by decide)).2.1
  · exact (toOneHot_amended [9, 2] 2 (by decide)).2.2.2.2 (by decide) (by decide)

/- Helper: when every step of the evaluate loop is defined, the fold
   accumulates the sum of the per-batch correct counts and the list of the
   per-batch losses. -/
theorem evalFold_eq (step : ℕ → Option (ℕ × ℚ)) :
    ∀ (l : List ℕ), (∀ s ∈ l, step s ≠ none) → ∀ (k : ℕ) (ls : List ℚ),
    evalFold step l (k, ls) =
      some (k + (l.map (fun s => ((step s).map Prod.fst).getD 0)).sum,
        ls ++ l.map (fun s => ((step s).map Prod.snd).getD 0)) := by
  intro l
  induction l with
  | nil =>
      intro _ k ls
      simp [evalFold]
  | cons s t ih =>
      intro hok k ls
      obtain ⟨r, hr⟩ := Option.ne_none_iff_exists'.mp (hok s (List.mem_cons_self s t))
      have hstep : evalFold step (s :: t) (k, ls) = evalFold step t (k + r.1, ls ++ [r.2]) := by
        simp [evalFold, hr]
      rw [hstep, ih (fun a ha => hok a (List.mem_cons_of_mem s ha))]
      simp [hr, add_assoc]

/-- C9: whenever every batch of the evaluation loop is defined, evaluate
returns exactly the pair described by the spec (specEvalPair: the count of
examples whose argmax of y_hat equals the integer label divided by the
dataset size, and the mean cross-entropy over evaluation batches), and the
parameters are untouched: a zero-epoch training run returns the parameter
state unchanged, so evaluating after it yields the very same
accuracy/loss pair as evaluating before it. -/
theorem evaluate_spec_frame (ν : Numerics) {d h c : ℕ} (N bs : ℕ)
    (data : ℕ → Fin d → ℚ) (labels : ℕ → Fin c) (p : Params d h c)
    (hok : ∀ s ∈ batchStarts N bs, evalStep ν data labels p N bs s ≠ none) :
    evaluate ν N bs data labels p = some (specEvalPair ν N bs data labels p) ∧
    (∀ (N2 bs2 : ℕ) (dataT : ℕ → Fin d → ℚ) (labT : ℕ → Fin c → ℚ) (wd mu : ℚ),
      trainEpochs ν N2 dataT labT bs2 wd 0 (p, mu) = some (p, mu) ∧
      (trainEpochs ν N2 dataT labT bs2 wd 0 (p, mu)).map
          (fun s2 => evaluate ν N bs data labels s2.1) =
        some (evaluate ν N bs data labels p)) := by
  constructor
  · rw [evaluate, evalFold_eq (evalStep ν data labels p N bs) (batchStarts N bs) hok 0 []]
    simp [specEvalPair, Nat.cast_list_sum]
  · intro N2 bs2 dataT labT wd mu
    exact ⟨rfl, rfl⟩

/-- Witness for C9 at a concrete instance: a 2-example 1-feature dataset
evaluated with batch size 1 (every forward succeeds since the concrete
square-root kernel is the nonzero constant 1). -/
theorem evaluate_spec_frame_w :
    (∀ s ∈ batchStarts 2 1, evalStep numA dataC9 labelsC9 pC9 2 1 s ≠ none) ∧
    evaluate numA 2 1 dataC9 labelsC9 pC9 =
      some (specEvalPair numA 2 1 dataC9 labelsC9 pC9) := by
  have hok : ∀ s ∈ batchStarts 2 1, evalStep numA dataC9 labelsC9 pC9 2 1 s ≠ none := by
    intro s _
    simp [evalStep, forward, stdMeanM, numA]
  exact ⟨hok, (evaluate_spec_frame numA 2 1 dataC9 labelsC9 pC9 hok).1⟩
